import Mathlib

/-
Verification of the fit-and-place and batch-processing logic of the
bg-remover-products repository (src/add_bg.py and src/remove_bg.py).

The arithmetic of add_background (lines 30-55 of add_bg.py) is embedded
over the exact rationals: Python's float expressions are modelled by the
real-number formulas they implement, and Python's int() truncation is
modelled by pyInt below.  All image dimensions are natural numbers.
Filenames are modelled as lists of characters, and the per-file pipeline
bodies (which may raise and are wrapped in try/except by the source) are
modelled as Option-valued functions.
-/

/-- Python int() applied to a rational value: truncation toward zero. -/
def pyInt (q : ℚ) : ℤ := if q < 0 then ⌈q⌉ else ⌊q⌋

namespace AddBg

/-- Lines 35-36 of add_bg.py: max_width = int(bg_width * 0.8), with the
literal 0.8 modelled exactly as 4/5. -/
def maxDim (bg : ℕ) : ℤ := pyInt ((bg : ℚ) * (4 / 5))

/-- Line 39 of add_bg.py: scale = min(max_width / prod_width, max_height / prod_height). -/
def fitScale (bgW bgH prodW prodH : ℕ) : ℚ :=
  min ((maxDim bgW : ℚ) / (prodW : ℚ)) ((maxDim bgH : ℚ) / (prodH : ℚ))

/-- Lines 30-43 of add_bg.py: the dimensions of the product after the
optional resize step.  When resizing is requested and scale < 1 the new
size is (int(prod_width * scale), int(prod_height * scale)); otherwise the
original dimensions are kept. -/
def resizedSize (bgW bgH prodW prodH : ℕ) (rz : Bool) : ℤ × ℤ :=
  if rz then
    if fitScale bgW bgH prodW prodH < 1 then
      (pyInt ((prodW : ℚ) * fitScale bgW bgH prodW prodH),
       pyInt ((prodH : ℚ) * fitScale bgW bgH prodW prodH))
    else ((prodW : ℤ), (prodH : ℤ))
  else ((prodW : ℤ), (prodH : ℤ))

/-- Lines 49-55 of add_bg.py: the paste offset.  Python floor division
on integers is Int.fdiv. -/
def placeOffset (bgW bgH pw ph : ℤ) (ct : Bool) : ℤ × ℤ :=
  if ct then ((bgW - pw).fdiv 2, (bgH - ph).fdiv 2) else (0, 0)

/-- The size and offset computed by add_background for given background
and product dimensions and the two flags. -/
def fitAndPlace (bgW bgH prodW prodH : ℕ) (rz ct : Bool) : (ℤ × ℤ) × ℤ × ℤ :=
  (resizedSize bgW bgH prodW prodH rz,
   placeOffset (bgW : ℤ) (bgH : ℤ) (resizedSize bgW bgH prodW prodH rz).1
     (resizedSize bgW bgH prodW prodH rz).2 ct)

/-- Specification reference value: max_width = floor(0.8 x background_width). -/
def specMaxDim (bg : ℕ) : ℤ := ⌊(4 / 5 : ℚ) * (bg : ℚ)⌋

/-- Specification reference value: scale = min(max_width / product_width,
max_height / product_height). -/
def specScale (bgW bgH prodW prodH : ℕ) : ℚ :=
  min ((specMaxDim bgW : ℚ) / (prodW : ℚ)) ((specMaxDim bgH : ℚ) / (prodH : ℚ))

/-- Reference definition following the claim text of the resize policy
literally: when scale < 1 the downscaled size is the ROUNDED product of the
original size and the scale. -/
def resizedSizeRoundSpec (bgW bgH prodW prodH : ℕ) (rz : Bool) : ℤ × ℤ :=
  if rz then
    if specScale bgW bgH prodW prodH < 1 then
      (round ((prodW : ℚ) * specScale bgW bgH prodW prodH),
       round ((prodH : ℚ) * specScale bgW bgH prodW prodH))
    else ((prodW : ℤ), (prodH : ℤ))
  else ((prodW : ℤ), (prodH : ℤ))

/-- Reference definition with the rounding mode the code actually uses:
identical to resizedSizeRoundSpec except that the downscaled size is the
FLOOR (truncation, as Python int() on these nonnegative values) of the
product of the original size and the scale. -/
def resizedSizeFloorSpec (bgW bgH prodW prodH : ℕ) (rz : Bool) : ℤ × ℤ :=
  if rz then
    if specScale bgW bgH prodW prodH < 1 then
      (⌊(prodW : ℚ) * specScale bgW bgH prodW prodH⌋,
       ⌊(prodH : ℚ) * specScale bgW bgH prodW prodH⌋)
    else ((prodW : ℤ), (prodH : ℤ))
  else ((prodW : ℤ), (prodH : ℤ))

end AddBg

namespace Paths

/-- Character list of the suffix _no_bg appended and stripped by the tools. -/
def noBgSuffix : List Char := ['_', 'n', 'o', '_', 'b', 'g']

/-- Character list of the extension .webp of every output. -/
def webpExt : List Char := ['.', 'w', 'e', 'b', 'p']

/-- Character list of the suffix _with_bg appended by the compositing tool. -/
def withBgSuffix : List Char := ['_', 'w', 'i', 't', 'h', '_', 'b', 'g']

/-- os.path.basename for POSIX paths: the part after the last slash. -/
def basename (p : List Char) : List Char :=
  (p.reverse.takeWhile (fun c => c != '/')).reverse

/-- The root part of os.path.splitext applied to a basename: everything
before the last dot, except that a name whose part before that dot is all
dots (such as a leading-dot file) is returned whole. -/
def splitextRoot (b : List Char) : List Char :=
  let ext := b.reverse.takeWhile (fun c => c != '.')
  if ext.length = b.length then b
  else
    if (b.take (b.length - ext.length - 1)).all (fun c => c == '.') then b
    else b.take (b.length - ext.length - 1)

/-- Lines 62-64 of add_bg.py: drop a trailing _no_bg from the basename. -/
def stripNoBg (b : List Char) : List Char :=
  if noBgSuffix.isSuffixOf b then b.take (b.length - 6) else b

/-- Lines 31-37 of remove_bg.py: output basename of the segmentation tool. -/
def removeBgOutputName (p : List Char) : List Char :=
  splitextRoot (basename p) ++ noBgSuffix ++ webpExt

/-- Lines 61-71 of add_bg.py: output basename of the compositing tool. -/
def addBgOutputName (p : List Char) : List Char :=
  stripNoBg (splitextRoot (basename p)) ++ withBgSuffix ++ webpExt

end Paths

namespace Batch

/-- Truthiness, as tested by the loops at add_bg.py line 113 and
remove_bg.py line 78, of the value returned by the per-file pipeline:
None and the empty string are falsy, any other string is truthy. -/
def pyTruthy : Option (List Char) → Bool
  | none => false
  | some s => !s.isEmpty

/-- Lines 108-116 of add_bg.py (and 73-81 of remove_bg.py): the loop
accumulating the pair (successful, failed) over the matched files, where
proc models the per-file pipeline returning the written path or None. -/
def batchCounts {α : Type} (proc : α → Option (List Char)) (files : List α) : ℕ × ℕ :=
  files.foldl
    (fun acc fp => if pyTruthy (proc fp) then (acc.1 + 1, acc.2) else (acc.1, acc.2 + 1))
    (0, 0)

/-- Result of a batch run: either sys.exit with a code before processing,
or completion with success and failure counts. -/
inductive BatchOutcome where
  | exited : ℕ → BatchOutcome
  | finished : ℕ → ℕ → BatchOutcome
deriving DecidableEq

/-- Lines 84-121 of add_bg.py: process_batch of the compositing tool,
returning the outcome together with the list of output paths written.
The empty-match check precedes the background check and any processing. -/
def addBgProcessBatch {α : Type} (files : List α) (bgExists : Bool)
    (proc : α → Option (List Char)) : BatchOutcome × List (List Char) :=
  if files.isEmpty then (BatchOutcome.exited 1, [])
  else if bgExists = false then (BatchOutcome.exited 1, [])
  else (BatchOutcome.finished (batchCounts proc files).1 (batchCounts proc files).2,
        files.filterMap proc)

/-- Lines 50-86 of remove_bg.py: process_batch of the segmentation tool. -/
def removeBgProcessBatch {α : Type} (files : List α)
    (proc : α → Option (List Char)) : BatchOutcome × List (List Char) :=
  if files.isEmpty then (BatchOutcome.exited 1, [])
  else (BatchOutcome.finished (batchCounts proc files).1 (batchCounts proc files).2,
        files.filterMap proc)

/-- Session-relevant events of the segmentation batch driver. -/
inductive SegEvent where
  | newSession : SegEvent
  | fileProcessed : List Char → ℕ → SegEvent
deriving DecidableEq

/-- Lines 59-81 of remove_bg.py abstracted to the session-relevant event
trace: on a nonempty match set the batch creates one model session (the
session with index 0, new_session at line 69) before the loop and then
processes each file passing that same session; on an empty match set the
process exits at line 63 before any session is created. -/
def removeBgBatchTrace (files : List (List Char)) : List SegEvent :=
  if files.isEmpty then []
  else SegEvent.newSession :: files.map (fun p => SegEvent.fileProcessed p 0)

end Batch

namespace Img

/-- An in-memory raster: width, height, and RGBA channel values per pixel
coordinate, channels as rationals with alpha in the range 0 to 1. -/
structure Image where
  width : ℕ
  height : ℕ
  px : ℕ → ℕ → ℚ × ℚ × ℚ × ℚ

/-- Modelled from the spec: the paste primitive of the image library used
at add_bg.py line 58 (result.paste(product, (x, y), product)) is not part
of this repository; section 4.1 of the spec gives per-pixel
out = bg * (1 - alpha) + product * alpha with regions outside the
background bounds silently clipped, and a flattened opaque result. -/
def pasteClip (bg p : Image) (off : ℤ × ℤ) : Image where
  width := bg.width
  height := bg.height
  px := fun x y =>
    if 0 ≤ (x : ℤ) - off.1 ∧ (x : ℤ) - off.1 < (p.width : ℤ) ∧
       0 ≤ (y : ℤ) - off.2 ∧ (y : ℤ) - off.2 < (p.height : ℤ) then
      ((bg.px x y).1 * (1 - (p.px ((x : ℤ) - off.1).toNat ((y : ℤ) - off.2).toNat).2.2.2)
         + (p.px ((x : ℤ) - off.1).toNat ((y : ℤ) - off.2).toNat).1
           * (p.px ((x : ℤ) - off.1).toNat ((y : ℤ) - off.2).toNat).2.2.2,
       (bg.px x y).2.1 * (1 - (p.px ((x : ℤ) - off.1).toNat ((y : ℤ) - off.2).toNat).2.2.2)
         + (p.px ((x : ℤ) - off.1).toNat ((y : ℤ) - off.2).toNat).2.1
           * (p.px ((x : ℤ) - off.1).toNat ((y : ℤ) - off.2).toNat).2.2.2,
       (bg.px x y).2.2.1 * (1 - (p.px ((x : ℤ) - off.1).toNat ((y : ℤ) - off.2).toNat).2.2.2)
         + (p.px ((x : ℤ) - off.1).toNat ((y : ℤ) - off.2).toNat).2.2.1
           * (p.px ((x : ℤ) - off.1).toNat ((y : ℤ) - off.2).toNat).2.2.2,
       1)
    else bg.px x y

/-- The image obtained by pasting the fitted product centered or at the
origin on a copy of the background (lines 46-58 of add_bg.py). -/
def placedOn (bg fitted : Image) (ct : Bool) : Image :=
  pasteClip bg fitted
    (AddBg.placeOffset (bg.width : ℤ) (bg.height : ℤ) (fitted.width : ℤ) (fitted.height : ℤ) ct)

/-- The resampled product in the downscale branch (line 43 of add_bg.py),
with the external resampling primitive passed in as resample. -/
def downscaledImage (resample : Image → ℤ → ℤ → Image) (p bg : Image) : Image :=
  resample p (AddBg.resizedSize bg.width bg.height p.width p.height true).1
    (AddBg.resizedSize bg.width bg.height p.width p.height true).2

/-- Lines 30-43 of add_bg.py at the image level: the product after the
optional resize step. -/
def fittedProduct (resample : Image → ℤ → ℤ → Image) (p bg : Image) (rz : Bool) : Image :=
  if rz then
    if AddBg.fitScale bg.width bg.height p.width p.height < 1 then
      downscaledImage resample p bg
    else p
  else p

/-- The whole compositing engine of add_background (lines 24-58 of
add_bg.py) as a function of the product, the background, the two flags,
and the external resampling primitive. -/
def add_background (resample : Image → ℤ → ℤ → Image) (p bg : Image) (rz ct : Bool) : Image :=
  placedOn bg (fittedProduct resample p bg rz) ct

/-- Big-step relation describing one run of the compositing engine, one
constructor per control path of add_background. -/
inductive EngineRun (resample : Image → ℤ → ℤ → Image) (p bg : Image) :
    Bool → Bool → Image → Prop where
  | downscale (ct : Bool)
      (h : AddBg.fitScale bg.width bg.height p.width p.height < 1) :
      EngineRun resample p bg true ct (placedOn bg (downscaledImage resample p bg) ct)
  | keep (ct : Bool)
      (h : ¬ AddBg.fitScale bg.width bg.height p.width p.height < 1) :
      EngineRun resample p bg true ct (placedOn bg p ct)
  | noresize (ct : Bool) :
      EngineRun resample p bg false ct (placedOn bg p ct)

/-- A one-pixel opaque black image, used as a concrete input. -/
def unitImage : Image where
  width := 1
  height := 1
  px := fun _ _ => (0, 0, 0, 1)

/-- A trivial concrete resampling primitive. -/
def idResample : Image → ℤ → ℤ → Image := fun i _ _ => i

end Img

theorem pyInt_of_nonneg {q : ℚ} (h : 0 ≤ q) : pyInt q = ⌊q⌋ :=
  if_neg (not_lt.mpr h)

namespace AddBg

theorem maxDim_nonneg (bg : ℕ) : 0 ≤ maxDim bg := by
  rw [maxDim, pyInt_of_nonneg (by positivity)]
  exact Int.floor_nonneg.mpr (by positivity)

theorem fitScale_nonneg (bgW bgH prodW prodH : ℕ) :
    0 ≤ fitScale bgW bgH prodW prodH := by
  refine le_min (div_nonneg ?_ (by positivity)) (div_nonneg ?_ (by positivity)) <;>
    exact_mod_cast maxDim_nonneg _

theorem maxDim_eq_spec (bg : ℕ) : maxDim bg = specMaxDim bg := by
  rw [maxDim, specMaxDim, pyInt_of_nonneg (by positivity), mul_comm]

theorem fitScale_eq_spec (bgW bgH prodW prodH : ℕ) :
    fitScale bgW bgH prodW prodH = specScale bgW bgH prodW prodH := by
  rw [fitScale, specScale, maxDim_eq_spec, maxDim_eq_spec]

end AddBg

/-- Claim C1, counterexample: on background 10 x 10 and product 3 x 13 with
resize_product=true the engine computes scale = 8/13 and width int(3 * 8/13) = 1,
while the rounded reference definition of the claim gives round(3 * 8/13) = 2,
so the resized dimensions do not equal the rounded reference definition. -/
theorem resize_round_reference_refuted :
    AddBg.resizedSize 10 10 3 13 true ≠ AddBg.resizedSizeRoundSpec 10 10 3 13 true := by
  have hm : AddBg.maxDim 10 = 8 := by
    rw [AddBg.maxDim, pyInt_of_nonneg (by positivity)]; norm_num
  have hs : AddBg.fitScale 10 10 3 13 = 8 / 13 := by
    rw [AddBg.fitScale, hm]; push_cast
    rw [min_eq_right (by norm_num)]
  have hcode : AddBg.resizedSize 10 10 3 13 true = (1, 8) := by
    simp only [AddBg.resizedSize, hs]
    norm_num [pyInt]
  have hspecS : AddBg.specScale 10 10 3 13 = 8 / 13 := by
    rw [← AddBg.fitScale_eq_spec]; exact hs
  have hspec : AddBg.resizedSizeRoundSpec 10 10 3 13 true = (2, 8) := by
    simp only [AddBg.resizedSizeRoundSpec, hspecS]
    norm_num [round_eq]
  rw [hcode, hspec]
  decide

/-- Claim C1 (amended): in the fit engine with resize_product=true the code
computes max_width = floor(0.8 x background_width), max_height likewise, and
scale = min(max_width / product_width, max_height / product_height); whenever
scale < 1 it resizes the product to the TRUNCATED products
(int(product_width x scale), int(product_height x scale)), which on these
nonnegative values is the floor, not the rounded value; whenever scale >= 1
the product keeps its original dimensions, and with resize_product=false the
original dimensions are used unconditionally.  For every dimension pair the
resized dimensions equal this floor reference definition. -/
theorem resize_eq_floor_reference (bgW bgH prodW prodH : ℕ) (rz : Bool) :
    AddBg.resizedSize bgW bgH prodW prodH rz =
      AddBg.resizedSizeFloorSpec bgW bgH prodW prodH rz := by
  cases rz with
  | false => rfl
  | true =>
    simp only [AddBg.resizedSize, AddBg.resizedSizeFloorSpec, if_true,
      ← AddBg.fitScale_eq_spec]
    split
    · rw [pyInt_of_nonneg (mul_nonneg (by positivity) (AddBg.fitScale_nonneg _ _ _ _)),
        pyInt_of_nonneg (mul_nonneg (by positivity) (AddBg.fitScale_nonneg _ _ _ _))]
    · rfl

/-- Claim C2: for background 1000 x 800 and product 900 x 900 with
resize_product=true and center=true, the engine computes max_width = 800,
max_height = 640, scale = min(800/900, 640/900), resizes the product to
(640, 640), and places it at offset (180, 80). -/
theorem scenario_1000x800_900 :
    AddBg.maxDim 1000 = 800 ∧ AddBg.maxDim 800 = 640 ∧
    AddBg.fitScale 1000 800 900 900 = min ((800 : ℚ) / 900) ((640 : ℚ) / 900) ∧
    AddBg.fitAndPlace 1000 800 900 900 true true = ((640, 640), 180, 80) := by
  have h1 : AddBg.maxDim 1000 = 800 := by
    rw [AddBg.maxDim, pyInt_of_nonneg (by positivity)]; norm_num
  have h2 : AddBg.maxDim 800 = 640 := by
    rw [AddBg.maxDim, pyInt_of_nonneg (by positivity)]; norm_num
  have hs : AddBg.fitScale 1000 800 900 900 = 32 / 45 := by
    rw [AddBg.fitScale, h1, h2]; push_cast
    rw [min_eq_right (by norm_num)]; norm_num
  have hrs : AddBg.resizedSize 1000 800 900 900 true = (640, 640) := by
    simp only [AddBg.resizedSize, hs]
    norm_num [pyInt]
  refine ⟨h1, h2, ?_, ?_⟩
  · rw [hs, min_eq_right (by norm_num)]; norm_num
  · simp only [AddBg.fitAndPlace, hrs, AddBg.placeOffset]
    decide

/-- Claim C10: on background 100 x 100 and product 1 x 1000 with
resize_product=true the engine computes scale = min(80/1, 80/1000) = 2/25,
which is below 1, and the truncated target size is (int(1 x 2/25),
int(1000 x 2/25)) = (0, 80): the engine can request a zero-width resized
product, there is no lower bound of 1 on the new dimensions. -/
theorem zero_width_target :
    AddBg.fitScale 100 100 1 1000 = 2 / 25 ∧ AddBg.fitScale 100 100 1 1000 < 1 ∧
    AddBg.resizedSize 100 100 1 1000 true = (0, 80) := by
  have hm : AddBg.maxDim 100 = 80 := by
    rw [AddBg.maxDim, pyInt_of_nonneg (by positivity)]; norm_num
  have hs : AddBg.fitScale 100 100 1 1000 = 2 / 25 := by
    rw [AddBg.fitScale, hm]; push_cast
    rw [min_eq_right (by norm_num)]; norm_num
  refine ⟨hs, by rw [hs]; norm_num, ?_⟩
  simp only [AddBg.resizedSize, hs]
  norm_num [pyInt]

theorem resizedSize_of_lt (bgW bgH pw ph : ℕ)
    (h : AddBg.fitScale bgW bgH pw ph < 1) :
    AddBg.resizedSize bgW bgH pw ph true =
      (⌊(pw : ℚ) * AddBg.fitScale bgW bgH pw ph⌋,
       ⌊(ph : ℚ) * AddBg.fitScale bgW bgH pw ph⌋) := by
  simp only [AddBg.resizedSize, eq_self_iff_true, if_true, if_pos h]
  rw [pyInt_of_nonneg (mul_nonneg (by positivity) (AddBg.fitScale_nonneg _ _ _ _)),
    pyInt_of_nonneg (mul_nonneg (by positivity) (AddBg.fitScale_nonneg _ _ _ _))]

theorem resizedSize_of_ge (bgW bgH pw ph : ℕ)
    (h : ¬ AddBg.fitScale bgW bgH pw ph < 1) :
    AddBg.resizedSize bgW bgH pw ph true = ((pw : ℤ), (ph : ℤ)) := by
  simp only [AddBg.resizedSize, eq_self_iff_true, if_true, if_neg h]

theorem maxDim_le (bg : ℕ) : (AddBg.maxDim bg : ℚ) ≤ 4 / 5 * (bg : ℚ) := by
  rw [AddBg.maxDim_eq_spec, AddBg.specMaxDim]
  exact Int.floor_le _

theorem mul_fitScale_le_left (bgW bgH pw ph : ℕ) (hpw : 0 < pw) :
    (pw : ℚ) * AddBg.fitScale bgW bgH pw ph ≤ (AddBg.maxDim bgW : ℚ) := by
  have hpw' : (0 : ℚ) < (pw : ℚ) := by exact_mod_cast hpw
  have h1 : AddBg.fitScale bgW bgH pw ph ≤ (AddBg.maxDim bgW : ℚ) / (pw : ℚ) :=
    min_le_left _ _
  calc (pw : ℚ) * AddBg.fitScale bgW bgH pw ph
      ≤ (pw : ℚ) * ((AddBg.maxDim bgW : ℚ) / (pw : ℚ)) := by
        exact mul_le_mul_of_nonneg_left h1 (le_of_lt hpw')
    _ = (AddBg.maxDim bgW : ℚ) := by field_simp

theorem mul_fitScale_le_right (bgW bgH pw ph : ℕ) (hph : 0 < ph) :
    (ph : ℚ) * AddBg.fitScale bgW bgH pw ph ≤ (AddBg.maxDim bgH : ℚ) := by
  have hph' : (0 : ℚ) < (ph : ℚ) := by exact_mod_cast hph
  have h1 : AddBg.fitScale bgW bgH pw ph ≤ (AddBg.maxDim bgH : ℚ) / (ph : ℚ) :=
    min_le_right _ _
  calc (ph : ℚ) * AddBg.fitScale bgW bgH pw ph
      ≤ (ph : ℚ) * ((AddBg.maxDim bgH : ℚ) / (ph : ℚ)) := by
        exact mul_le_mul_of_nonneg_left h1 (le_of_lt hph')
    _ = (AddBg.maxDim bgH : ℚ) := by field_simp

/-- Claim C3: with resize_product=true the placed product dimensions never
exceed 0.8 times the background dimensions (even without the one-pixel
slack the claim allows), and the aspect ratio is preserved within rounding
tolerance: the cross difference width x original_height minus
height x original_width is smaller in absolute value than the larger
original dimension. -/
theorem fit_within_bounds (bgW bgH pw ph : ℕ) (hpw : 0 < pw) (hph : 0 < ph) :
    ((AddBg.resizedSize bgW bgH pw ph true).1 : ℚ) ≤ 4 / 5 * (bgW : ℚ) ∧
    ((AddBg.resizedSize bgW bgH pw ph true).2 : ℚ) ≤ 4 / 5 * (bgH : ℚ) ∧
    |((AddBg.resizedSize bgW bgH pw ph true).1 : ℚ) * (ph : ℚ) -
      ((AddBg.resizedSize bgW bgH pw ph true).2 : ℚ) * (pw : ℚ)| <
      max (pw : ℚ) (ph : ℚ) := by
  have hpw' : (0 : ℚ) < (pw : ℚ) := by exact_mod_cast hpw
  have hph' : (0 : ℚ) < (ph : ℚ) := by exact_mod_cast hph
  by_cases hlt : AddBg.fitScale bgW bgH pw ph < 1
  · rw [resizedSize_of_lt bgW bgH pw ph hlt]
    have hwle : (⌊(pw : ℚ) * AddBg.fitScale bgW bgH pw ph⌋ : ℚ) ≤
        (pw : ℚ) * AddBg.fitScale bgW bgH pw ph := Int.floor_le _
    have hhle : (⌊(ph : ℚ) * AddBg.fitScale bgW bgH pw ph⌋ : ℚ) ≤
        (ph : ℚ) * AddBg.fitScale bgW bgH pw ph := Int.floor_le _
    have hwgt : (pw : ℚ) * AddBg.fitScale bgW bgH pw ph - 1 <
        (⌊(pw : ℚ) * AddBg.fitScale bgW bgH pw ph⌋ : ℚ) := Int.sub_one_lt_floor _
    have hhgt : (ph : ℚ) * AddBg.fitScale bgW bgH pw ph - 1 <
        (⌊(ph : ℚ) * AddBg.fitScale bgW bgH pw ph⌋ : ℚ) := Int.sub_one_lt_floor _
    refine ⟨?_, ?_, ?_⟩
    · exact hwle.trans ((mul_fitScale_le_left bgW bgH pw ph hpw).trans (maxDim_le bgW))
    · exact hhle.trans ((mul_fitScale_le_right bgW bgH pw ph hph).trans (maxDim_le bgH))
    · rw [abs_lt]
      constructor
      · have h1 : (⌊(pw : ℚ) * AddBg.fitScale bgW bgH pw ph⌋ : ℚ) * (ph : ℚ) >
            ((pw : ℚ) * AddBg.fitScale bgW bgH pw ph - 1) * (ph : ℚ) :=
          mul_lt_mul_of_pos_right hwgt hph'
        have h2 : (⌊(ph : ℚ) * AddBg.fitScale bgW bgH pw ph⌋ : ℚ) * (pw : ℚ) ≤
            ((ph : ℚ) * AddBg.fitScale bgW bgH pw ph) * (pw : ℚ) :=
          mul_le_mul_of_nonneg_right hhle (le_of_lt hpw')
        have h3 : (ph : ℚ) ≤ max (pw : ℚ) (ph : ℚ) := le_max_right _ _
        nlinarith [h1, h2, h3]
      · have h1 : (⌊(pw : ℚ) * AddBg.fitScale bgW bgH pw ph⌋ : ℚ) * (ph : ℚ) ≤
            ((pw : ℚ) * AddBg.fitScale bgW bgH pw ph) * (ph : ℚ) :=
          mul_le_mul_of_nonneg_right hwle (le_of_lt hph')
        have h2 : (⌊(ph : ℚ) * AddBg.fitScale bgW bgH pw ph⌋ : ℚ) * (pw : ℚ) >
            ((ph : ℚ) * AddBg.fitScale bgW bgH pw ph - 1) * (pw : ℚ) :=
          mul_lt_mul_of_pos_right hhgt hpw'
        have h3 : (pw : ℚ) ≤ max (pw : ℚ) (ph : ℚ) := le_max_left _ _
        nlinarith [h1, h2, h3]
  · rw [resizedSize_of_ge bgW bgH pw ph hlt]
    have hs1 : (1 : ℚ) ≤ AddBg.fitScale bgW bgH pw ph := le_of_not_lt hlt
    have hwm : (pw : ℚ) ≤ (AddBg.maxDim bgW : ℚ) := by
      have := mul_fitScale_le_left bgW bgH pw ph hpw
      nlinarith [this, hs1, hpw']
    have hhm : (ph : ℚ) ≤ (AddBg.maxDim bgH : ℚ) := by
      have := mul_fitScale_le_right bgW bgH pw ph hph
      nlinarith [this, hs1, hph']
    refine ⟨?_, ?_, ?_⟩
    · exact_mod_cast hwm.trans (maxDim_le bgW)
    · exact_mod_cast hhm.trans (maxDim_le bgH)
    · push_cast
      rw [mul_comm]
      simp only [sub_self, abs_zero]
      exact lt_max_of_lt_left hpw'

/-- Witness for fit_within_bounds at background 10 x 10, product 3 x 13. -/
theorem fit_within_bounds_concrete :
    ((AddBg.resizedSize 10 10 3 13 true).1 : ℚ) ≤ 4 / 5 * (10 : ℚ) ∧
    ((AddBg.resizedSize 10 10 3 13 true).2 : ℚ) ≤ 4 / 5 * (10 : ℚ) ∧
    |((AddBg.resizedSize 10 10 3 13 true).1 : ℚ) * (13 : ℚ) -
      ((AddBg.resizedSize 10 10 3 13 true).2 : ℚ) * (3 : ℚ)| <
      max (3 : ℚ) (13 : ℚ) :=
  fit_within_bounds 10 10 3 13 (by norm_num) (by norm_num)

/-- Claim C4: with center=true the placement offset is the pair of floor
divisions ((background_width - product_width) // 2,
(background_height - product_height) // 2) on the post-resize product
dimensions; it is not clamped and is negative when the product is larger
than the background (here 30 x 30 on 10 x 10 without resizing gives
(-10, -10)); with center=false the offset is (0, 0). -/
theorem center_offset_formula (bgW bgH pw ph : ℕ) (rz : Bool) :
    (AddBg.fitAndPlace bgW bgH pw ph rz true).2 =
      (((bgW : ℤ) - (AddBg.fitAndPlace bgW bgH pw ph rz true).1.1).fdiv 2,
       ((bgH : ℤ) - (AddBg.fitAndPlace bgW bgH pw ph rz true).1.2).fdiv 2) ∧
    (AddBg.fitAndPlace bgW bgH pw ph rz false).2 = (0, 0) ∧
    (AddBg.fitAndPlace 10 10 30 30 false true).2 = (-10, -10) := by
  refine ⟨?_, ?_, by decide⟩
  · simp only [AddBg.fitAndPlace, AddBg.placeOffset, eq_self_iff_true, if_true]
  · simp only [AddBg.fitAndPlace, AddBg.placeOffset]
    rfl

theorem takeWhile_middle (p : Char → Bool) (x : Char) (hx : p x = false) :
    ∀ (l r : List Char), (∀ a ∈ l, p a = true) → (l ++ x :: r).takeWhile p = l := by
  intro l
  induction l with
  | nil => intro r _; simp [List.takeWhile_cons, hx]
  | cons a t ih =>
    intro r hl
    have ha : p a = true := hl a (List.mem_cons_self a t)
    simp only [List.cons_append, List.takeWhile_cons, ha, if_true]
    rw [ih r (fun b hb => hl b (List.mem_cons_of_mem a hb))]

theorem basename_of_no_slash (p : List Char) (h : '/' ∉ p) : Paths.basename p = p := by
  rw [Paths.basename, List.takeWhile_eq_self_iff.mpr ?_, List.reverse_reverse]
  intro a ha
  have hm : a ∈ p := List.mem_reverse.mp ha
  have hne : a ≠ '/' := fun heq => h (heq ▸ hm)
  simpa [bne_iff_ne] using hne

theorem splitextRoot_append (b e : List Char) (he : ∀ a ∈ e, (a != '.') = true)
    (hball : ¬ (b.all (fun c => c == '.') = true)) :
    Paths.splitextRoot (b ++ '.' :: e) = b := by
  have hrev : (b ++ '.' :: e).reverse.takeWhile (fun c => c != '.') = e.reverse := by
    rw [List.reverse_append, List.reverse_cons, List.append_assoc]
    exact takeWhile_middle _ '.' (by decide) e.reverse b.reverse
      (fun a ha => he a (List.mem_reverse.mp ha))
  simp only [Paths.splitextRoot, hrev, List.length_reverse, List.length_append,
    List.length_cons]
  rw [if_neg (by omega)]
  have harith : b.length + (e.length + 1) - e.length - 1 = b.length := by omega
  rw [harith, List.take_left, if_neg hball]

theorem stripNoBg_append_suffix (b : List Char) :
    Paths.stripNoBg (b ++ Paths.noBgSuffix) = b := by
  have hsuf : Paths.noBgSuffix.isSuffixOf (b ++ Paths.noBgSuffix) = true := by
    rw [List.isSuffixOf_iff_suffix]; exact List.suffix_append _ _
  rw [Paths.stripNoBg, if_pos hsuf, List.length_append]
  have h6 : Paths.noBgSuffix.length = 6 := rfl
  rw [h6, Nat.add_sub_cancel, List.take_left]

theorem not_all_dots (b : List Char) (hd : '.' ∉ b) (hne : b ≠ []) :
    ¬ (b.all (fun c => c == '.') = true) := by
  rw [List.all_eq_true]
  push_neg
  obtain ⟨c, hc⟩ := List.exists_mem_of_ne_nil b hne
  refine ⟨c, hc, fun h => ?_⟩
  have : c = '.' := by simpa using h
  exact hd (this ▸ hc)

theorem no_slash_append (b s : List Char) (h1 : '/' ∉ b) (h2 : '/' ∉ s) :
    '/' ∉ b ++ s := by
  intro h
  rcases List.mem_append.mp h with hb | hs
  · exact h1 hb
  · exact h2 hs

/-- Claim C5: the segmentation tool derives the output name by appending
_no_bg.webp to the input basename without extension, and the compositing
tool strips a trailing _no_bg from the product basename when present and
appends _with_bg.webp; in particular widget_no_bg.webp maps to
widget_with_bg.webp and widget.webp (no suffix) also maps to
widget_with_bg.webp. -/
theorem output_names (b : List Char) (hs : '/' ∉ b) (hd : '.' ∉ b) (hne : b ≠ []) :
    Paths.removeBgOutputName (b ++ Paths.webpExt) =
      b ++ Paths.noBgSuffix ++ Paths.webpExt ∧
    Paths.addBgOutputName (b ++ Paths.noBgSuffix ++ Paths.webpExt) =
      b ++ Paths.withBgSuffix ++ Paths.webpExt ∧
    (Paths.noBgSuffix.isSuffixOf b = false →
      Paths.addBgOutputName (b ++ Paths.webpExt) =
        b ++ Paths.withBgSuffix ++ Paths.webpExt) ∧
    Paths.addBgOutputName ("widget_no_bg.webp".toList) = "widget_with_bg.webp".toList ∧
    Paths.addBgOutputName ("widget.webp".toList) = "widget_with_bg.webp".toList ∧
    Paths.removeBgOutputName ("widget.webp".toList) = "widget_no_bg.webp".toList := by
  have hwebp : '/' ∉ Paths.webpExt := by decide
  have hnobg : '/' ∉ Paths.noBgSuffix := by decide
  have hball := not_all_dots b hd hne
  have hsplit1 : Paths.splitextRoot (b ++ Paths.webpExt) = b := by
    have hform : b ++ Paths.webpExt = b ++ '.' :: ['w', 'e', 'b', 'p'] := rfl
    rw [hform]; exact splitextRoot_append b _ (by decide) hball
  have hball2 : ¬ ((b ++ Paths.noBgSuffix).all (fun c => c == '.') = true) := by
    rw [List.all_eq_true]; push_neg
    exact ⟨'_', List.mem_append.mpr (Or.inr (by decide)), by decide⟩
  have hsplit2 : Paths.splitextRoot ((b ++ Paths.noBgSuffix) ++ Paths.webpExt) =
      b ++ Paths.noBgSuffix := by
    have hform : (b ++ Paths.noBgSuffix) ++ Paths.webpExt =
        (b ++ Paths.noBgSuffix) ++ '.' :: ['w', 'e', 'b', 'p'] := rfl
    rw [hform]; exact splitextRoot_append _ _ (by decide) hball2
  refine ⟨?_, ?_, ?_, by decide, by decide, by decide⟩
  · rw [Paths.removeBgOutputName, basename_of_no_slash _ (no_slash_append _ _ hs hwebp),
      hsplit1]
  · rw [Paths.addBgOutputName,
      basename_of_no_slash _ (no_slash_append _ _ (no_slash_append _ _ hs hnobg) hwebp),
      hsplit2, stripNoBg_append_suffix]
  · intro hnot
    rw [Paths.addBgOutputName, basename_of_no_slash _ (no_slash_append _ _ hs hwebp),
      hsplit1, Paths.stripNoBg, if_neg (by simp [hnot])]

/-- Witness for output_names at the basename widget. -/
theorem output_names_concrete :
    Paths.removeBgOutputName ("widget".toList ++ Paths.webpExt) =
      "widget".toList ++ Paths.noBgSuffix ++ Paths.webpExt ∧
    Paths.addBgOutputName ("widget".toList ++ Paths.noBgSuffix ++ Paths.webpExt) =
      "widget".toList ++ Paths.withBgSuffix ++ Paths.webpExt ∧
    (Paths.noBgSuffix.isSuffixOf "widget".toList = false →
      Paths.addBgOutputName ("widget".toList ++ Paths.webpExt) =
        "widget".toList ++ Paths.withBgSuffix ++ Paths.webpExt) ∧
    Paths.addBgOutputName ("widget_no_bg.webp".toList) = "widget_with_bg.webp".toList ∧
    Paths.addBgOutputName ("widget.webp".toList) = "widget_with_bg.webp".toList ∧
    Paths.removeBgOutputName ("widget.webp".toList) = "widget_no_bg.webp".toList :=
  output_names ("widget".toList) (by decide) (by decide) (by decide)

theorem batchCounts_aux {α : Type} (proc : α → Option (List Char)) :
    ∀ (files : List α) (s k : ℕ),
      List.foldl
        (fun acc fp =>
          if Batch.pyTruthy (proc fp) then (acc.1 + 1, acc.2) else (acc.1, acc.2 + 1))
        (s, k) files =
      (s + files.countP (fun a => Batch.pyTruthy (proc a)),
       k + files.countP (fun a => !Batch.pyTruthy (proc a))) := by
  intro files
  induction files with
  | nil => intro s k; simp
  | cons a t ih =>
    intro s k
    rw [List.foldl_cons, List.countP_cons, List.countP_cons]
    by_cases h : Batch.pyTruthy (proc a) = true
    · rw [if_pos h, ih]
      simp only [h, Bool.not_true]
      rw [if_true, if_neg (show ¬(false = true) by decide)]
      simp only [Prod.mk.injEq]
      exact ⟨by omega, by omega⟩
    · rw [if_neg h, ih]
      have h2 : Batch.pyTruthy (proc a) = false := by
        cases hpt : Batch.pyTruthy (proc a)
        · rfl
        · exact absurd hpt h
      simp only [h2, Bool.not_false]
      rw [if_true, if_neg (show ¬(false = true) by decide)]
      simp only [Prod.mk.injEq]
      exact ⟨by omega, by omega⟩

/-- Claim C6: the batch loop processes every matched file independently:
the success counter equals the number of files whose processing returned a
truthy path, the failure counter equals the number whose processing
returned a falsy value, and the two counters always sum to the number of
matched files, whatever the per-file results are, so one failing file
never aborts the batch. -/
theorem batch_counts_total {α : Type} (proc : α → Option (List Char)) (files : List α) :
    Batch.batchCounts proc files =
      (files.countP (fun a => Batch.pyTruthy (proc a)),
       files.countP (fun a => !Batch.pyTruthy (proc a))) ∧
    (Batch.batchCounts proc files).1 + (Batch.batchCounts proc files).2 = files.length := by
  have he : Batch.batchCounts proc files =
      (files.countP (fun a => Batch.pyTruthy (proc a)),
       files.countP (fun a => !Batch.pyTruthy (proc a))) := by
    rw [Batch.batchCounts, batchCounts_aux]
    simp
  refine ⟨he, ?_⟩
  rw [he]
  have hl := List.length_eq_countP_add_countP (fun a => Batch.pyTruthy (proc a)) files
  simp only at hl ⊢
  rw [hl]
  congr 1
  apply List.countP_congr
  intro a _
  cases Batch.pyTruthy (proc a) <;> simp

/-- Claim C7: batch mode on an empty match set exits with status 1 and
performs no file writes, in both the compositing tool (whatever the
background-existence check would say) and the segmentation tool. -/
theorem empty_batch_exits {α : Type} (bgExists : Bool) (proc : α → Option (List Char)) :
    Batch.addBgProcessBatch ([] : List α) bgExists proc =
      (Batch.BatchOutcome.exited 1, []) ∧
    Batch.removeBgProcessBatch ([] : List α) proc =
      (Batch.BatchOutcome.exited 1, []) := by
  exact ⟨rfl, rfl⟩

/-- Claim C9: on a nonempty batch the segmentation driver emits exactly one
session-creation event, it is the first event of the trace, every file is
processed with that same session (index 0), and one file-processing event
follows per matched file. -/
theorem session_created_once (files : List (List Char)) (hne : files ≠ []) :
    (Batch.removeBgBatchTrace files).count Batch.SegEvent.newSession = 1 ∧
    (Batch.removeBgBatchTrace files).head? = some Batch.SegEvent.newSession ∧
    (∀ p s, Batch.SegEvent.fileProcessed p s ∈ Batch.removeBgBatchTrace files → s = 0) ∧
    (Batch.removeBgBatchTrace files).length = files.length + 1 := by
  have hie : ¬ (files.isEmpty = true) := by
    rw [List.isEmpty_iff]; exact hne
  rw [Batch.removeBgBatchTrace, if_neg hie]
  refine ⟨?_, rfl, ?_, by simp⟩
  · rw [List.count_cons_self]
    have hz : (files.map (fun p => Batch.SegEvent.fileProcessed p 0)).count
        Batch.SegEvent.newSession = 0 := by
      rw [List.count_eq_zero]
      intro hmem
      obtain ⟨p, _, hp⟩ := List.mem_map.mp hmem
      exact Batch.SegEvent.noConfusion hp
    rw [hz]
  · intro p s hmem
    rcases List.mem_cons.mp hmem with h | h
    · exact Batch.SegEvent.noConfusion h
    · obtain ⟨q, _, hq⟩ := List.mem_map.mp h
      cases hq
      rfl

/-- Witness for session_created_once on a one-file batch. -/
theorem session_created_once_concrete :
    (Batch.removeBgBatchTrace ["a".toList]).count Batch.SegEvent.newSession = 1 ∧
    (Batch.removeBgBatchTrace ["a".toList]).head? = some Batch.SegEvent.newSession ∧
    (∀ p s, Batch.SegEvent.fileProcessed p s ∈ Batch.removeBgBatchTrace ["a".toList] →
      s = 0) ∧
    (Batch.removeBgBatchTrace ["a".toList]).length = ["a".toList].length + 1 :=
  session_created_once (["a".toList]) (by decide)

/-- Claim C8: the compositing engine is deterministic: any two runs of the
engine on the same product image, background image, flags and resampling
primitive produce equal output images, pixel for pixel. -/
theorem engine_deterministic (resample : Img.Image → ℤ → ℤ → Img.Image)
    (p bg : Img.Image) (rz ct : Bool) (o1 o2 : Img.Image)
    (h1 : Img.EngineRun resample p bg rz ct o1)
    (h2 : Img.EngineRun resample p bg rz ct o2) : o1 = o2 := by
  cases h1 with
  | downscale c h =>
    cases h2 with
    | downscale c2 h2 => rfl
    | keep c2 h2 => exact absurd h h2
  | keep c h =>
    cases h2 with
    | downscale c2 h2 => exact absurd h2 h
    | keep c2 h2 => rfl
  | noresize c =>
    cases h2 with
    | noresize c2 => rfl

/-- Witness for engine_deterministic on a concrete one-pixel run. -/
theorem engine_deterministic_concrete :
    Img.placedOn Img.unitImage Img.unitImage false =
      Img.placedOn Img.unitImage Img.unitImage false :=
  engine_deterministic Img.idResample Img.unitImage Img.unitImage false false _ _
    (Img.EngineRun.noresize false) (Img.EngineRun.noresize false)

theorem engineRun_total (resample : Img.Image → ℤ → ℤ → Img.Image)
    (p bg : Img.Image) (rz ct : Bool) :
    Img.EngineRun resample p bg rz ct (Img.add_background resample p bg rz ct) := by
  cases rz with
  | false => exact Img.EngineRun.noresize ct
  | true =>
    by_cases h : AddBg.fitScale bg.width bg.height p.width p.height < 1
    · have heq : Img.add_background resample p bg true ct =
          Img.placedOn bg (Img.downscaledImage resample p bg) ct := by
        simp only [Img.add_background, Img.fittedProduct, eq_self_iff_true, if_true,
          if_pos h]
      rw [heq]
      exact Img.EngineRun.downscale ct h
    · have heq : Img.add_background resample p bg true ct = Img.placedOn bg p ct := by
        simp only [Img.add_background, Img.fittedProduct, eq_self_iff_true, if_true,
          if_neg h]
      rw [heq]
      exact Img.EngineRun.keep ct h
